import Mathlib

/-!
Verification of the bidirectional text-scanning cursor library (`ParseCursor`).

The embedding works at text-unit (char) granularity: a buffer is a `List Char`
and all offsets count text units. At this granularity every index `0 ≤ i ≤ len`
is a valid text-unit boundary (the byte-level "inside a multi-byte code point"
situation cannot arise), which is exactly the boundary-safety the external
`Searchable` capability guarantees for every offset it produces.

Patterns are modelled as exact substrings (`List Char`), the representative
instance of the external `Searchable` capability.
-/

namespace Parsebuf

abbrev Str := List Char

/-- Modelled from the spec: the external `Searchable` capability's forward
find-first operation (`find_`), instantiated at exact-substring patterns:
the least index at which the pattern occurs, if any. -/
def find_ (s pattern : Str) : Option Nat :=
  (List.range (s.length + 1)).find? fun i => pattern.isPrefixOf (s.drop i)

/-- Modelled from the spec: the external `Searchable` capability's reverse
find-last operation (`rfind_`), instantiated at exact-substring patterns:
the greatest index at which the pattern occurs, if any.  The first element
of `rmatch_indices_` starts at the same index, and (for a substring pattern)
the matched sub-slice is the pattern itself. -/
def rfind_ (s pattern : Str) : Option Nat :=
  (List.range (s.length + 1)).reverse.find? fun i => pattern.isPrefixOf (s.drop i)

/-- Modelled from the spec: `strip_prefix_` of the `Searchable` capability —
strip exactly one leading occurrence, failing when the pattern is not a
leading slice of the haystack. -/
def strip_prefix_ (s pattern : Str) : Option Str :=
  if pattern.isPrefixOf s then some (s.drop pattern.length) else none

/-- Modelled from the spec: `strip_suffix_` of the `Searchable` capability —
strip exactly one trailing occurrence, failing when the pattern is not a
trailing slice of the haystack. -/
def strip_suffix_ (s pattern : Str) : Option Str :=
  if pattern.isSuffixOf s then some (s.take (s.length - pattern.length)) else none

/-- Fuel-based worker for `trim_start_matches_`; each successful strip removes
at least one element, so fuel `s.length` always suffices. -/
def trim_start_matches_go (fuel : Nat) (s pattern : Str) : Str :=
  match fuel with
  | 0 => s
  | fuel + 1 =>
      if pattern ≠ [] ∧ pattern.isPrefixOf s then
        trim_start_matches_go fuel (s.drop pattern.length) pattern
      else
        s

/-- Modelled from the spec: `trim_start_matches_` of the `Searchable`
capability — remove all leading repeats of the pattern.  An empty pattern
trims nothing (mirroring the Rust standard library's behaviour). -/
def trim_start_matches_ (s pattern : Str) : Str :=
  trim_start_matches_go s.length s pattern

/-- Fuel-based worker for `trim_end_matches_`. -/
def trim_end_matches_go (fuel : Nat) (s pattern : Str) : Str :=
  match fuel with
  | 0 => s
  | fuel + 1 =>
      if pattern ≠ [] ∧ pattern.isSuffixOf s then
        trim_end_matches_go fuel (s.take (s.length - pattern.length)) pattern
      else
        s

/-- Modelled from the spec: `trim_end_matches_` of the `Searchable`
capability — remove all trailing repeats of the pattern. -/
def trim_end_matches_ (s pattern : Str) : Str :=
  trim_end_matches_go s.length s pattern

inductive Direction where
  | Forward
  | Backward
deriving Repr, DecidableEq

inductive PatternLoc where
  | FirstExcluded
  | FirstIncluded
  | BeginningMany
  | BeginningOnce
  | LastExcluded
  | EndOfLast
  | StartOfSuffixMany
deriving Repr, DecidableEq

/-- The anchor resolver: given a haystack view, a pattern, an anchor kind and
a scan direction, the byte offset (from the relevant end of the haystack) at
which a boundary should land, or `none` ("not found").

Direct translation of `find_directional_offset` in `src/lib.rs`.  The
`rmatch_indices_(pattern).next()` / `match_indices_(pattern).next()` calls of
the source are rendered through `rfind_` / `find_`: for a substring pattern
the first (r)match starts at the same index as `rfind_` / `find_` and the
matched sub-slice equals the pattern, so `offset_of_sub_end` adds
`pattern.length`. -/
def find_directional_offset (haystack pattern : Str) (loc : PatternLoc)
    (direction : Direction) : Option Nat :=
  let from_start_offset_to_end_offset := fun offset_from_beg =>
    haystack.length - offset_from_beg
  let from_end_offset_to_start_offset := fun offset_from_end =>
    haystack.length - offset_from_end
  let offset_of_sub_end := fun (x : Nat × Str) => x.1 + x.2.length
  match loc, direction with
  | .FirstExcluded, .Forward => find_ haystack pattern
  | .FirstExcluded, .Backward =>
      ((rfind_ haystack pattern).map fun i => offset_of_sub_end (i, pattern)).map
        from_start_offset_to_end_offset
  | .FirstIncluded, .Forward =>
      (find_ haystack pattern).map fun i => offset_of_sub_end (i, pattern)
  | .FirstIncluded, .Backward =>
      (rfind_ haystack pattern).map from_start_offset_to_end_offset
  | .BeginningMany, .Forward =>
      let rem := trim_start_matches_ haystack pattern
      some (from_end_offset_to_start_offset rem.length)
  | .BeginningMany, .Backward =>
      let rem := trim_end_matches_ haystack pattern
      some (from_start_offset_to_end_offset rem.length)
  | .BeginningOnce, .Forward =>
      (strip_prefix_ haystack pattern).map fun rem =>
        from_end_offset_to_start_offset rem.length
  | .BeginningOnce, .Backward =>
      (strip_suffix_ haystack pattern).map fun rem =>
        from_start_offset_to_end_offset rem.length
  | .LastExcluded, .Forward => rfind_ haystack pattern
  | .LastExcluded, .Backward =>
      ((rfind_ haystack pattern).map fun i => offset_of_sub_end (i, pattern)).map
        from_start_offset_to_end_offset
  | .EndOfLast, .Forward =>
      (rfind_ haystack pattern).map fun i => offset_of_sub_end (i, pattern)
  | .EndOfLast, .Backward =>
      (find_ haystack pattern).map from_start_offset_to_end_offset
  | .StartOfSuffixMany, .Forward =>
      some (trim_end_matches_ haystack pattern).length
  | .StartOfSuffixMany, .Backward =>
      some (trim_start_matches_ haystack pattern).length

inductive InwardStrategy where
  | CursorOnly
  | WholeData
deriving Repr, DecidableEq

inductive FallBack where
  | ToTheEnd
  | StayAtBeginning
deriving Repr, DecidableEq

/-- Outcome of a fallible movement: the source returns
`Result<&mut Self, Failed>`; `failed` embeds the `Failed` error value. -/
inductive MoveResult where
  | ok
  | failed
deriving Repr, DecidableEq

/-- The cursor: a buffer reference plus the current span `cursor_range`.
The field `stop` embeds `cursor_range.end` (`end` is a Lean keyword). -/
structure ParseCursor where
  data : Str
  start : Nat
  stop : Nat
deriving Repr, DecidableEq

/-- A position is a valid text-unit boundary of `s`.  At char granularity
every index up to the length is a boundary. -/
def is_char_boundary (s : Str) (i : Nat) : Prop := i ≤ s.length

instance (s : Str) (i : Nat) : Decidable (is_char_boundary s i) :=
  inferInstanceAs (Decidable (i ≤ s.length))

def new_empty_start (data : Str) : ParseCursor :=
  { data := data, start := 0, stop := 0 }

def new_empty_end (data : Str) : ParseCursor :=
  { data := data, start := data.length, stop := data.length }

def new_full (data : Str) : ParseCursor :=
  { data := data, start := 0, stop := data.length }

def front_to_back (c : ParseCursor) : ParseCursor :=
  { c with stop := c.start }

def back_to_front (c : ParseCursor) : ParseCursor :=
  { c with start := c.stop }

/-- The `cursor()` view: `&data[start..end]`. -/
def cursor (c : ParseCursor) : Str :=
  (c.data.take c.stop).drop c.start

/-- The `back_rem()` view: `&data[..start]`. -/
def back_rem (c : ParseCursor) : Str :=
  c.data.take c.start

/-- The `front_rem()` view: `&data[end..]`. -/
def front_rem (c : ParseCursor) : Str :=
  c.data.drop c.stop

/-- The `all_but_front_rem()` view: `&data[..end]`. -/
def all_but_front_rem (c : ParseCursor) : Str :=
  c.data.take c.stop

/-- The `all_but_back_rem()` view: `&data[start..]`. -/
def all_but_back_rem (c : ParseCursor) : Str :=
  c.data.drop c.start

/-- The invariants asserted by `check_invariants` in the source:
`start <= end` and `data.get(start..end).is_some()` — the latter holds
exactly when `end` is within the buffer and both ends are text-unit
boundaries. -/
def check_invariants (c : ParseCursor) : Prop :=
  c.start ≤ c.stop ∧ c.stop ≤ c.data.length ∧
    is_char_boundary c.data c.start ∧ is_char_boundary c.data c.stop

instance (c : ParseCursor) : Decidable (check_invariants c) :=
  inferInstanceAs (Decidable (_ ∧ _ ∧ _ ∧ _))

def split (c : ParseCursor) : Str × Str × Str :=
  (back_rem c, cursor c, front_rem c)

def extract (c : ParseCursor) : Str × ParseCursor × Str :=
  (back_rem c, new_full (cursor c), front_rem c)

def snap (c : ParseCursor) : ParseCursor :=
  (extract c).2.1

def move_front_forward (c : ParseCursor) (off : Nat) : ParseCursor :=
  { c with stop := c.stop + off }

/-- The condition of the else-branch of `move_front_backward` /
`move_back_forward`: the requested offset exceeds the current span width.
In the source this branch panics under `debug_assertions` when the strategy
is `CursorOnly`. -/
def crosses_opposite_boundary (c : ParseCursor) (off : Nat) : Prop :=
  (cursor c).length < off

/-- Release-mode semantics of `move_front_backward`: pull `end` leftward by
`off`; when the offset crosses the opposite boundary, drag `start` along
(`back_to_front`).  Reachable states never make `end - off` underflow, so
plain truncated subtraction is faithful. -/
def move_front_backward (c : ParseCursor) (off : Nat)
    (inward_strategy : InwardStrategy) : ParseCursor :=
  if (cursor c).length ≥ off then
    { c with stop := c.stop - off }
  else
    back_to_front { c with stop := c.stop - off }

def move_back_backward (c : ParseCursor) (off : Nat) : ParseCursor :=
  { c with start := c.start - off }

/-- Release-mode semantics of `move_back_forward`: push `start` rightward by
`off`; when the offset crosses the opposite boundary, drag `end` along
(`front_to_back`). -/
def move_back_forward (c : ParseCursor) (off : Nat)
    (inward_strategy : InwardStrategy) : ParseCursor :=
  if (cursor c).length ≥ off then
    { c with start := c.start + off }
  else
    front_to_back { c with start := c.start + off }

/-- `front_forward_by`: fixed-size forward move of `end`.  The source asserts
`front_rem().is_char_boundary(by)` before moving; the reachability relation
below carries that assertion as a side condition. -/
def front_forward_by (c : ParseCursor) (off : Nat) : ParseCursor :=
  move_front_forward c off

def front_forward (c : ParseCursor) (pattern : Str) (loc : PatternLoc) :
    ParseCursor × MoveResult :=
  match find_directional_offset (front_rem c) pattern loc .Forward with
  | none => (c, .failed)
  | some off => (move_front_forward c off, .ok)

def front_forward_or (c : ParseCursor) (pattern : Str) (loc : PatternLoc)
    (fallback : FallBack) : ParseCursor :=
  match front_forward c pattern loc with
  | (c1, .ok) => c1
  | (c1, .failed) =>
      match fallback with
      | .ToTheEnd => move_front_forward c1 (front_rem c1).length
      | .StayAtBeginning => c1

def back_backward (c : ParseCursor) (pattern : Str) (loc : PatternLoc) :
    ParseCursor × MoveResult :=
  match find_directional_offset (back_rem c) pattern loc .Backward with
  | none => (c, .failed)
  | some off => (move_back_backward c off, .ok)

def front_backward (c : ParseCursor) (pattern : Str) (loc : PatternLoc)
    (inward_strategy : InwardStrategy) : ParseCursor × MoveResult :=
  let view := match inward_strategy with
    | .CursorOnly => cursor c
    | .WholeData => all_but_front_rem c
  match find_directional_offset view pattern loc .Backward with
  | none => (c, .failed)
  | some off => (move_front_backward c off inward_strategy, .ok)

def back_forward_view (c : ParseCursor) (inward_strategy : InwardStrategy) : Str :=
  match inward_strategy with
  | .CursorOnly => cursor c
  | .WholeData => all_but_back_rem c

def back_forward (c : ParseCursor) (pattern : Str) (loc : PatternLoc)
    (inward_strategy : InwardStrategy) : ParseCursor × MoveResult :=
  match find_directional_offset (back_forward_view c inward_strategy) pattern loc
      .Forward with
  | none => (c, .failed)
  | some off => (move_back_forward c off inward_strategy, .ok)

/-- `back_forward_by`: fixed-size move of `start`.  The source asserts that
the offset is a text-unit boundary of the strategy's view; the reachability
relation below carries that assertion as a side condition. -/
def back_forward_by (c : ParseCursor) (off : Nat)
    (inward_strategy : InwardStrategy) : ParseCursor :=
  move_back_forward c off inward_strategy

def back_forward_or (c : ParseCursor) (pattern : Str) (loc : PatternLoc)
    (inward_strategy : InwardStrategy) (fallback : FallBack) : ParseCursor :=
  match back_forward c pattern loc inward_strategy with
  | (c1, .ok) => c1
  | (c1, .failed) =>
      match fallback with
      | .ToTheEnd =>
          move_back_forward c1 (back_forward_view c1 inward_strategy).length
            inward_strategy
      | .StayAtBeginning => c1

/-- One pull of the iterator returned by `step`: the `std::iter::from_fn`
closure collapses the span forward (`back_to_front`), runs the recipe once
and yields the new span on success.  A recipe mutates the cursor and reports
success or failure, and may leave the cursor moved even when it fails (the
source hands the recipe `&mut Self`). -/
def step_pull (f : ParseCursor → ParseCursor × MoveResult) (c : ParseCursor) :
    Option Str × ParseCursor :=
  let c1 := back_to_front c
  match f c1 with
  | (c2, .ok) => (some (cursor c2), c2)
  | (c2, .failed) => (none, c2)

/-- Cursor states reachable from the three constructors by public movement,
reset, and extraction operations.  The `_by` moves carry the source's
boundary assertion as a side condition (an assertion failure aborts instead
of producing a state). -/
inductive Reachable : ParseCursor → Prop where
  | of_new_empty_start (s : Str) : Reachable (new_empty_start s)
  | of_new_empty_end (s : Str) : Reachable (new_empty_end s)
  | of_new_full (s : Str) : Reachable (new_full s)
  | of_front_to_back {c} : Reachable c → Reachable (front_to_back c)
  | of_back_to_front {c} : Reachable c → Reachable (back_to_front c)
  | of_front_forward {c} (pattern : Str) (loc : PatternLoc) :
      Reachable c → Reachable (front_forward c pattern loc).1
  | of_front_forward_or {c} (pattern : Str) (loc : PatternLoc) (fallback : FallBack) :
      Reachable c → Reachable (front_forward_or c pattern loc fallback)
  | of_back_backward {c} (pattern : Str) (loc : PatternLoc) :
      Reachable c → Reachable (back_backward c pattern loc).1
  | of_front_backward {c} (pattern : Str) (loc : PatternLoc)
      (inward_strategy : InwardStrategy) :
      Reachable c → Reachable (front_backward c pattern loc inward_strategy).1
  | of_back_forward {c} (pattern : Str) (loc : PatternLoc)
      (inward_strategy : InwardStrategy) :
      Reachable c → Reachable (back_forward c pattern loc inward_strategy).1
  | of_back_forward_or {c} (pattern : Str) (loc : PatternLoc)
      (inward_strategy : InwardStrategy) (fallback : FallBack) :
      Reachable c → Reachable (back_forward_or c pattern loc inward_strategy fallback)
  | of_front_forward_by {c} (off : Nat) :
      Reachable c → is_char_boundary (front_rem c) off →
      Reachable (front_forward_by c off)
  | of_back_forward_by {c} (off : Nat) (inward_strategy : InwardStrategy) :
      Reachable c → is_char_boundary (back_forward_view c inward_strategy) off →
      Reachable (back_forward_by c off inward_strategy)
  | of_snap {c} : Reachable c → Reachable (snap c)

/-- Spec-side definition (for C3): the condition under which the anchor
resolver reports "not found".  The four find-based kinds fail exactly when
the pattern does not occur in the haystack; `BeginningOnce` fails exactly
when the pattern is not anchored at the relevant boundary (not a leading
slice for Forward, not a trailing slice for Backward); the two trimming
kinds never fail. -/
def resolver_failure_condition (haystack pattern : Str) (loc : PatternLoc)
    (direction : Direction) : Prop :=
  match loc, direction with
  | .BeginningMany, _ => False
  | .StartOfSuffixMany, _ => False
  | .BeginningOnce, .Forward => ¬ pattern <+: haystack
  | .BeginningOnce, .Backward => ¬ pattern <:+ haystack
  | _, _ => ¬ pattern <:+: haystack

/-- Spec-side definition (for C8): the number of positions at which the
pattern occurs in `s`.  "A pattern with a single occurrence" is
`count_occurrences s p = 1`. -/
def count_occurrences (s p : Str) : Nat :=
  ((List.range (s.length + 1)).filter fun i => p.isPrefixOf (s.drop i)).length

/-! ### Characterizations of the search primitives -/

theorem range_find?_eq_some {q : Nat → Bool} :
    ∀ {n i : Nat}, (List.range n).find? q = some i ↔
      i < n ∧ q i = true ∧ ∀ j < i, q j = false := by
  intro n
  induction n with
  | zero => intro i; simp
  | succ n ih =>
    intro i
    rw [List.range_succ, List.find?_append]
    cases hfo : (List.range n).find? q with
    | some k =>
      have hk := ih.mp hfo
      simp only [Option.or_some, Option.some.injEq]
      constructor
      · rintro rfl
        exact ⟨Nat.lt_succ_of_lt hk.1, hk.2.1, hk.2.2⟩
      · rintro ⟨hi, hqi, hmin⟩
        rcases Nat.lt_trichotomy k i with h | h | h
        · exact absurd hk.2.1 (by simp [hmin k h])
        · exact h
        · exact absurd hqi (by simp [hk.2.2 i h])
    | none =>
      have hnone : ∀ j < n, q j = false := by
        intro j hj
        have := List.find?_eq_none.mp hfo j (List.mem_range.mpr hj)
        simpa using this
      simp only [Option.none_or]
      by_cases hqn : q n = true
      · rw [List.find?_cons_of_pos _ hqn]
        simp only [Option.some.injEq]
        constructor
        · rintro rfl
          exact ⟨Nat.lt_succ_self n, hqn, hnone⟩
        · rintro ⟨hi, hqi, hmin⟩
          rcases Nat.lt_succ_iff_lt_or_eq.mp hi with h | h
          · exact absurd hqi (by simp [hnone i h])
          · exact h.symm
      · rw [List.find?_cons_of_neg _ hqn, List.find?_nil]
        constructor
        · rintro ⟨⟩
        · rintro ⟨hi, hqi, hmin⟩
          rcases Nat.lt_succ_iff_lt_or_eq.mp hi with h | h
          · exact absurd hqi (by simp [hnone i h])
          · subst h; exact absurd hqi hqn

theorem range_reverse_find?_eq_some {q : Nat → Bool} :
    ∀ {n i : Nat}, (List.range n).reverse.find? q = some i ↔
      i < n ∧ q i = true ∧ ∀ j, i < j → j < n → q j = false := by
  intro n
  induction n with
  | zero => intro i; simp
  | succ n ih =>
    intro i
    rw [List.range_succ, List.reverse_append]
    simp only [List.reverse_cons, List.reverse_nil, List.nil_append,
      List.cons_append, List.nil_append]
    by_cases hqn : q n = true
    · rw [List.find?_cons_of_pos _ hqn]
      simp only [Option.some.injEq]
      constructor
      · rintro rfl
        exact ⟨Nat.lt_succ_self n, hqn, fun j h1 h2 => by omega⟩
      · rintro ⟨hi, hqi, hmax⟩
        rcases Nat.lt_succ_iff_lt_or_eq.mp hi with h | h
        · exact absurd hqn (by simp [hmax n h (Nat.lt_succ_self n)])
        · exact h.symm
    · rw [List.find?_cons_of_neg _ hqn, ih]
      constructor
      · rintro ⟨hi, hqi, hmax⟩
        refine ⟨Nat.lt_succ_of_lt hi, hqi, fun j h1 h2 => ?_⟩
        rcases Nat.lt_succ_iff_lt_or_eq.mp h2 with h | h
        · exact hmax j h1 h
        · subst h; simpa using hqn
      · rintro ⟨hi, hqi, hmax⟩
        have hin : i < n := by
          rcases Nat.lt_succ_iff_lt_or_eq.mp hi with h | h
          · exact h
          · subst h; exact absurd hqi hqn
        exact ⟨hin, hqi, fun j h1 h2 => hmax j h1 (Nat.lt_succ_of_lt h2)⟩

theorem isPrefixOf_eq_false_iff {p s : Str} :
    p.isPrefixOf s = false ↔ ¬ p <+: s := by
  rw [Bool.eq_false_iff, Ne, List.isPrefixOf_iff_prefix]

theorem find__eq_some_iff {s p : Str} {i : Nat} :
    find_ s p = some i ↔
      i ≤ s.length ∧ p <+: s.drop i ∧ ∀ j < i, ¬ p <+: s.drop j := by
  rw [find_, range_find?_eq_some]
  simp [Nat.lt_succ_iff, isPrefixOf_eq_false_iff]

theorem rfind__eq_some_iff {s p : Str} {i : Nat} :
    rfind_ s p = some i ↔
      i ≤ s.length ∧ p <+: s.drop i ∧
        ∀ j, i < j → j ≤ s.length → ¬ p <+: s.drop j := by
  rw [rfind_, range_reverse_find?_eq_some]
  simp [Nat.lt_succ_iff, isPrefixOf_eq_false_iff]

theorem find__eq_none_iff {s p : Str} :
    find_ s p = none ↔ ∀ i ≤ s.length, ¬ p <+: s.drop i := by
  rw [find_, List.find?_eq_none]
  simp [Nat.lt_succ_iff]

theorem rfind__eq_none_iff {s p : Str} :
    rfind_ s p = none ↔ ∀ i ≤ s.length, ¬ p <+: s.drop i := by
  rw [rfind_, List.find?_eq_none]
  simp [Nat.lt_succ_iff]

theorem infix_iff_exists_drop {p s : Str} :
    p <:+: s ↔ ∃ i, i ≤ s.length ∧ p <+: s.drop i := by
  constructor
  · rintro ⟨l, r, rfl⟩
    refine ⟨l.length, by simp, ?_⟩
    rw [List.append_assoc, List.drop_left]
    exact ⟨r, rfl⟩
  · rintro ⟨i, hi, r, hr⟩
    exact ⟨s.take i, r, by rw [List.append_assoc, hr, List.take_append_drop]⟩

theorem find__eq_none_iff_not_infix {s p : Str} :
    find_ s p = none ↔ ¬ p <:+: s := by
  rw [find__eq_none_iff, infix_iff_exists_drop]
  push_neg
  rfl

theorem rfind__eq_none_iff_not_infix {s p : Str} :
    rfind_ s p = none ↔ ¬ p <:+: s := by
  rw [rfind__eq_none_iff, infix_iff_exists_drop]
  push_neg
  rfl

theorem find__add_le {s p : Str} {i : Nat} (h : find_ s p = some i) :
    i + p.length ≤ s.length := by
  obtain ⟨hi, hpre, -⟩ := find__eq_some_iff.mp h
  have := hpre.length_le
  simp only [List.length_drop] at this
  omega

theorem rfind__add_le {s p : Str} {i : Nat} (h : rfind_ s p = some i) :
    i + p.length ≤ s.length := by
  obtain ⟨hi, hpre, -⟩ := rfind__eq_some_iff.mp h
  have := hpre.length_le
  simp only [List.length_drop] at this
  omega

/-! ### Trim lemmas -/

theorem trim_start_matches_go_congr :
    ∀ {f₁ : Nat} {s : Str} {f₂ : Nat} {p : Str}, s.length ≤ f₁ → s.length ≤ f₂ →
      trim_start_matches_go f₁ s p = trim_start_matches_go f₂ s p := by
  intro f₁
  induction f₁ with
  | zero =>
    intro s f₂ p h1 h2
    have hs : s = [] := List.eq_nil_of_length_eq_zero (Nat.le_zero.mp h1)
    subst hs
    cases f₂ with
    | zero => rfl
    | succ f₂ =>
      simp only [trim_start_matches_go]
      rw [if_neg]
      rintro ⟨hne, hpre⟩
      exact hne (List.prefix_nil.mp (by simpa using hpre))
  | succ f₁ ih =>
    intro s f₂ p h1 h2
    cases f₂ with
    | zero =>
      have hs : s = [] := List.eq_nil_of_length_eq_zero (Nat.le_zero.mp h2)
      subst hs
      simp only [trim_start_matches_go]
      rw [if_neg]
      rintro ⟨hne, hpre⟩
      exact hne (List.prefix_nil.mp (by simpa using hpre))
    | succ f₂ =>
      simp only [trim_start_matches_go]
      by_cases hc : p ≠ [] ∧ p.isPrefixOf s
      · rw [if_pos hc, if_pos hc]
        have hlp : 0 < p.length := List.length_pos.mpr hc.1
        have hle : p.length ≤ s.length := by
          have : p <+: s := by simpa using hc.2
          exact this.length_le
        have hd : (s.drop p.length).length ≤ f₁ := by
          simp only [List.length_drop]; omega
        have hd2 : (s.drop p.length).length ≤ f₂ := by
          simp only [List.length_drop]; omega
        exact ih hd hd2
      · rw [if_neg hc, if_neg hc]

theorem trim_start_matches_eq (s p : Str) :
    trim_start_matches_ s p =
      if p ≠ [] ∧ p.isPrefixOf s then trim_start_matches_ (s.drop p.length) p
      else s := by
  by_cases hc : p ≠ [] ∧ p.isPrefixOf s
  · rw [if_pos hc]
    have hlp : 0 < p.length := List.length_pos.mpr hc.1
    have hle : p.length ≤ s.length := by
      have : p <+: s := by simpa using hc.2
      exact this.length_le
    obtain ⟨n, hs⟩ : ∃ n, s.length = n + 1 := ⟨s.length - 1, by omega⟩
    calc trim_start_matches_ s p
        = trim_start_matches_go (n + 1) s p := by
          unfold trim_start_matches_; rw [hs]
      _ = trim_start_matches_go n (s.drop p.length) p := by
          simp only [trim_start_matches_go]; rw [if_pos hc]
      _ = trim_start_matches_go (s.drop p.length).length (s.drop p.length) p :=
          trim_start_matches_go_congr (by simp [List.length_drop]; omega)
            (Nat.le_refl _)
      _ = trim_start_matches_ (s.drop p.length) p := rfl
  · rw [if_neg hc]
    unfold trim_start_matches_
    cases hs : s.length with
    | zero => rfl
    | succ n =>
      simp only [trim_start_matches_go]
      rw [if_neg hc]

theorem trim_end_matches_go_congr :
    ∀ {f₁ : Nat} {s : Str} {f₂ : Nat} {p : Str}, s.length ≤ f₁ → s.length ≤ f₂ →
      trim_end_matches_go f₁ s p = trim_end_matches_go f₂ s p := by
  intro f₁
  induction f₁ with
  | zero =>
    intro s f₂ p h1 h2
    have hs : s = [] := List.eq_nil_of_length_eq_zero (Nat.le_zero.mp h1)
    subst hs
    cases f₂ with
    | zero => rfl
    | succ f₂ =>
      simp only [trim_end_matches_go]
      rw [if_neg]
      rintro ⟨hne, hsuf⟩
      exact hne (List.suffix_nil.mp (by simpa using hsuf))
  | succ f₁ ih =>
    intro s f₂ p h1 h2
    cases f₂ with
    | zero =>
      have hs : s = [] := List.eq_nil_of_length_eq_zero (Nat.le_zero.mp h2)
      subst hs
      simp only [trim_end_matches_go]
      rw [if_neg]
      rintro ⟨hne, hsuf⟩
      exact hne (List.suffix_nil.mp (by simpa using hsuf))
    | succ f₂ =>
      simp only [trim_end_matches_go]
      by_cases hc : p ≠ [] ∧ p.isSuffixOf s
      · rw [if_pos hc, if_pos hc]
        have hlp : 0 < p.length := List.length_pos.mpr hc.1
        have hle : p.length ≤ s.length := by
          have : p <:+ s := by simpa using hc.2
          exact this.length_le
        have hd : (s.take (s.length - p.length)).length ≤ f₁ := by
          simp only [List.length_take]; omega
        have hd2 : (s.take (s.length - p.length)).length ≤ f₂ := by
          simp only [List.length_take]; omega
        exact ih hd hd2
      · rw [if_neg hc, if_neg hc]

theorem trim_end_matches_eq (s p : Str) :
    trim_end_matches_ s p =
      if p ≠ [] ∧ p.isSuffixOf s then
        trim_end_matches_ (s.take (s.length - p.length)) p
      else s := by
  by_cases hc : p ≠ [] ∧ p.isSuffixOf s
  · rw [if_pos hc]
    have hlp : 0 < p.length := List.length_pos.mpr hc.1
    have hle : p.length ≤ s.length := by
      have : p <:+ s := by simpa using hc.2
      exact this.length_le
    obtain ⟨n, hs⟩ : ∃ n, s.length = n + 1 := ⟨s.length - 1, by omega⟩
    calc trim_end_matches_ s p
        = trim_end_matches_go (n + 1) s p := by
          unfold trim_end_matches_; rw [hs]
      _ = trim_end_matches_go n (s.take (s.length - p.length)) p := by
          simp only [trim_end_matches_go]; rw [if_pos hc]
      _ = trim_end_matches_go (s.take (s.length - p.length)).length
            (s.take (s.length - p.length)) p :=
          trim_end_matches_go_congr (by simp [List.length_take]; omega)
            (Nat.le_refl _)
      _ = trim_end_matches_ (s.take (s.length - p.length)) p := rfl
  · rw [if_neg hc]
    unfold trim_end_matches_
    cases hs : s.length with
    | zero => rfl
    | succ n =>
      simp only [trim_end_matches_go]
      rw [if_neg hc]

theorem trim_start_matches_isSuffix :
    ∀ (n : Nat) (s p : Str), s.length ≤ n → trim_start_matches_ s p <:+ s := by
  intro n
  induction n with
  | zero =>
    intro s p h
    have hs : s = [] := List.eq_nil_of_length_eq_zero (Nat.le_zero.mp h)
    subst hs
    have hni : ¬ (p ≠ [] ∧ p.isPrefixOf ([] : Str) = true) := by
      rintro ⟨hne, hpre⟩
      exact hne (List.prefix_nil.mp (by simpa using hpre))
    rw [trim_start_matches_eq, if_neg hni]
  | succ n ih =>
    intro s p h
    rw [trim_start_matches_eq]
    by_cases hc : p ≠ [] ∧ p.isPrefixOf s
    · rw [if_pos hc]
      have hlp : 0 < p.length := List.length_pos.mpr hc.1
      have hle : p.length ≤ s.length := by
        have : p <+: s := by simpa using hc.2
        exact this.length_le
      have hrec := ih (s.drop p.length) p (by simp [List.length_drop]; omega)
      exact hrec.trans (List.drop_suffix _ _)
    · rw [if_neg hc]

theorem trim_start_matches_suffix_of (s p : Str) : trim_start_matches_ s p <:+ s :=
  trim_start_matches_isSuffix s.length s p (Nat.le_refl _)

theorem trim_end_matches_isPre :
    ∀ (n : Nat) (s p : Str), s.length ≤ n → trim_end_matches_ s p <+: s := by
  intro n
  induction n with
  | zero =>
    intro s p h
    have hs : s = [] := List.eq_nil_of_length_eq_zero (Nat.le_zero.mp h)
    subst hs
    have hni : ¬ (p ≠ [] ∧ p.isSuffixOf ([] : Str) = true) := by
      rintro ⟨hne, hsuf⟩
      exact hne (List.suffix_nil.mp (by simpa using hsuf))
    rw [trim_end_matches_eq, if_neg hni]
  | succ n ih =>
    intro s p h
    rw [trim_end_matches_eq]
    by_cases hc : p ≠ [] ∧ p.isSuffixOf s
    · rw [if_pos hc]
      have hlp : 0 < p.length := List.length_pos.mpr hc.1
      have hle : p.length ≤ s.length := by
        have : p <:+ s := by simpa using hc.2
        exact this.length_le
      have hrec := ih (s.take (s.length - p.length)) p
        (by simp [List.length_take]; omega)
      exact hrec.trans (List.take_prefix _ _)
    · rw [if_neg hc]

theorem trim_end_matches_pre_of (s p : Str) : trim_end_matches_ s p <+: s :=
  trim_end_matches_isPre s.length s p (Nat.le_refl _)

theorem trim_start_matches_length_le (s p : Str) :
    (trim_start_matches_ s p).length ≤ s.length :=
  (trim_start_matches_suffix_of s p).length_le

theorem trim_end_matches_length_le (s p : Str) :
    (trim_end_matches_ s p).length ≤ s.length :=
  (trim_end_matches_pre_of s p).length_le

theorem trim_start_matches_no_lead :
    ∀ (n : Nat) (s p : Str), s.length ≤ n → p ≠ [] →
      ¬ p <+: trim_start_matches_ s p := by
  intro n
  induction n with
  | zero =>
    intro s p h hne
    have hs : s = [] := List.eq_nil_of_length_eq_zero (Nat.le_zero.mp h)
    subst hs
    have hni : ¬ (p ≠ [] ∧ p.isPrefixOf ([] : Str) = true) := by
      rintro ⟨hne2, hpre⟩
      exact hne2 (List.prefix_nil.mp (by simpa using hpre))
    rw [trim_start_matches_eq, if_neg hni]
    intro hpre
    exact hne (List.prefix_nil.mp hpre)
  | succ n ih =>
    intro s p h hne
    rw [trim_start_matches_eq]
    by_cases hc : p ≠ [] ∧ p.isPrefixOf s
    · rw [if_pos hc]
      have hlp : 0 < p.length := List.length_pos.mpr hc.1
      have hle : p.length ≤ s.length := by
        have : p <+: s := by simpa using hc.2
        exact this.length_le
      exact ih (s.drop p.length) p (by simp [List.length_drop]; omega) hne
    · rw [if_neg hc]
      intro hpre
      exact hc ⟨hne, by simpa using hpre⟩

theorem trim_start_matches_idem (s p : Str) :
    trim_start_matches_ (trim_start_matches_ s p) p = trim_start_matches_ s p := by
  rw [trim_start_matches_eq, if_neg]
  rintro ⟨hne, hpre⟩
  exact trim_start_matches_no_lead s.length s p (Nat.le_refl _) hne
    (by simpa using hpre)

theorem suffix_drop_of_suffix {t s : Str} (h : t <:+ s) :
    s.drop (s.length - t.length) = t := by
  obtain ⟨u, rfl⟩ := h
  have : (u ++ t).length - t.length = u.length := by simp
  rw [this, List.drop_left]

/-! ### The central offset bound: every resolver result fits the haystack -/

theorem find_directional_offset_le_length {s p : Str} {loc : PatternLoc}
    {dir : Direction} {n : Nat}
    (h : find_directional_offset s p loc dir = some n) : n ≤ s.length := by
  cases loc <;> cases dir <;>
    simp only [find_directional_offset, Option.map_eq_some', Option.some.injEq] at h
  case FirstExcluded.Forward =>
    exact (find__eq_some_iff.mp h).1
  case FirstExcluded.Backward =>
    obtain ⟨m, ⟨i, hi, rfl⟩, rfl⟩ := h
    omega
  case FirstIncluded.Forward =>
    obtain ⟨i, hi, rfl⟩ := h
    exact find__add_le hi
  case FirstIncluded.Backward =>
    obtain ⟨i, hi, rfl⟩ := h
    omega
  case BeginningMany.Forward =>
    omega
  case BeginningMany.Backward =>
    omega
  case BeginningOnce.Forward =>
    obtain ⟨rem, hrem, rfl⟩ := h
    omega
  case BeginningOnce.Backward =>
    obtain ⟨rem, hrem, rfl⟩ := h
    omega
  case LastExcluded.Forward =>
    exact (rfind__eq_some_iff.mp h).1
  case LastExcluded.Backward =>
    obtain ⟨m, ⟨i, hi, rfl⟩, rfl⟩ := h
    omega
  case EndOfLast.Forward =>
    obtain ⟨i, hi, rfl⟩ := h
    exact rfind__add_le hi
  case EndOfLast.Backward =>
    obtain ⟨i, hi, rfl⟩ := h
    omega
  case StartOfSuffixMany.Forward =>
    have := trim_end_matches_length_le s p
    omega
  case StartOfSuffixMany.Backward =>
    have := trim_start_matches_length_le s p
    omega

/-! ### View lengths and invariant preservation -/

theorem cursor_length {c : ParseCursor} (h1 : c.start ≤ c.stop)
    (h2 : c.stop ≤ c.data.length) : (cursor c).length = c.stop - c.start := by
  simp only [cursor, List.length_drop, List.length_take]
  omega

theorem cursor_length_le_stop (c : ParseCursor) : (cursor c).length ≤ c.stop := by
  simp only [cursor, List.length_drop, List.length_take]
  omega

theorem front_rem_length (c : ParseCursor) :
    (front_rem c).length = c.data.length - c.stop := by
  simp [front_rem]

theorem back_rem_length_le (c : ParseCursor) : (back_rem c).length ≤ c.start := by
  simp only [back_rem, List.length_take]
  omega

theorem all_but_front_rem_length_le (c : ParseCursor) :
    (all_but_front_rem c).length ≤ c.stop := by
  simp only [all_but_front_rem, List.length_take]
  omega

theorem all_but_back_rem_length (c : ParseCursor) :
    (all_but_back_rem c).length = c.data.length - c.start := by
  simp [all_but_back_rem]

theorem back_forward_view_length_le (c : ParseCursor)
    (strat : InwardStrategy) (h1 : c.start ≤ c.stop) (h2 : c.stop ≤ c.data.length) :
    (back_forward_view c strat).length ≤ c.data.length - c.start := by
  cases strat with
  | CursorOnly =>
    have := cursor_length h1 h2
    simp only [back_forward_view]
    omega
  | WholeData =>
    simp only [back_forward_view, all_but_back_rem_length]
    exact Nat.le_refl _

theorem check_invariants_new_empty_start (s : Str) :
    check_invariants (new_empty_start s) := by
  simp [check_invariants, is_char_boundary, new_empty_start]

theorem check_invariants_new_empty_end (s : Str) :
    check_invariants (new_empty_end s) := by
  simp [check_invariants, is_char_boundary, new_empty_end]

theorem check_invariants_new_full (s : Str) :
    check_invariants (new_full s) := by
  simp [check_invariants, is_char_boundary, new_full]

theorem check_invariants_front_to_back {c : ParseCursor}
    (h : check_invariants c) : check_invariants (front_to_back c) := by
  simp only [check_invariants, is_char_boundary, front_to_back] at h ⊢
  omega

theorem check_invariants_back_to_front {c : ParseCursor}
    (h : check_invariants c) : check_invariants (back_to_front c) := by
  simp only [check_invariants, is_char_boundary, back_to_front] at h ⊢
  omega

theorem check_invariants_move_front_forward {c : ParseCursor} {off : Nat}
    (h : check_invariants c) (hoff : off ≤ (front_rem c).length) :
    check_invariants (move_front_forward c off) := by
  rw [front_rem_length] at hoff
  simp only [check_invariants, is_char_boundary, move_front_forward] at h ⊢
  omega

theorem check_invariants_move_back_backward {c : ParseCursor} {off : Nat}
    (h : check_invariants c) (hoff : off ≤ (back_rem c).length) :
    check_invariants (move_back_backward c off) := by
  have := back_rem_length_le c
  simp only [check_invariants, is_char_boundary, move_back_backward] at h ⊢
  omega

theorem check_invariants_move_front_backward {c : ParseCursor} {off : Nat}
    {strat : InwardStrategy} (h : check_invariants c) (hoff : off ≤ c.stop) :
    check_invariants (move_front_backward c off strat) := by
  obtain ⟨h1, h2, h3, h4⟩ := h
  rw [move_front_backward]
  by_cases hbr : (cursor c).length ≥ off
  · rw [if_pos hbr]
    rw [cursor_length h1 h2] at hbr
    simp only [check_invariants, is_char_boundary]
    omega
  · rw [if_neg hbr]
    simp only [check_invariants, is_char_boundary, back_to_front]
    omega

theorem check_invariants_move_back_forward {c : ParseCursor} {off : Nat}
    {strat : InwardStrategy} (h : check_invariants c)
    (hoff : off ≤ c.data.length - c.start) :
    check_invariants (move_back_forward c off strat) := by
  obtain ⟨h1, h2, h3, h4⟩ := h
  rw [move_back_forward]
  by_cases hbr : (cursor c).length ≥ off
  · rw [if_pos hbr]
    rw [cursor_length h1 h2] at hbr
    simp only [check_invariants, is_char_boundary]
    omega
  · rw [if_neg hbr]
    simp only [check_invariants, is_char_boundary, front_to_back]
    omega

theorem check_invariants_front_forward {c : ParseCursor} (pattern : Str)
    (loc : PatternLoc) (h : check_invariants c) :
    check_invariants (front_forward c pattern loc).1 := by
  rw [front_forward]
  cases hfd : find_directional_offset (front_rem c) pattern loc .Forward with
  | none => exact h
  | some off =>
    exact check_invariants_move_front_forward h
      (find_directional_offset_le_length hfd)

theorem check_invariants_front_forward_or {c : ParseCursor} (pattern : Str)
    (loc : PatternLoc) (fallback : FallBack) (h : check_invariants c) :
    check_invariants (front_forward_or c pattern loc fallback) := by
  rw [front_forward_or]
  cases hff : front_forward c pattern loc with
  | mk c1 res =>
    have hc1 : check_invariants c1 := by
      have := check_invariants_front_forward pattern loc h
      rw [hff] at this
      exact this
    cases res with
    | ok => exact hc1
    | failed =>
      cases fallback with
      | ToTheEnd =>
        exact check_invariants_move_front_forward hc1 (Nat.le_refl _)
      | StayAtBeginning => exact hc1

theorem check_invariants_back_backward {c : ParseCursor} (pattern : Str)
    (loc : PatternLoc) (h : check_invariants c) :
    check_invariants (back_backward c pattern loc).1 := by
  rw [back_backward]
  cases hfd : find_directional_offset (back_rem c) pattern loc .Backward with
  | none => exact h
  | some off =>
    exact check_invariants_move_back_backward h
      (find_directional_offset_le_length hfd)

theorem check_invariants_front_backward {c : ParseCursor} (pattern : Str)
    (loc : PatternLoc) (strat : InwardStrategy) (h : check_invariants c) :
    check_invariants (front_backward c pattern loc strat).1 := by
  obtain ⟨h1, h2, h3, h4⟩ := h
  cases strat with
  | CursorOnly =>
    rw [front_backward.eq_def]
    dsimp only
    cases hfd : find_directional_offset (cursor c) pattern loc .Backward with
    | none => exact ⟨h1, h2, h3, h4⟩
    | some off =>
      show check_invariants (move_front_backward c off .CursorOnly)
      refine check_invariants_move_front_backward ⟨h1, h2, h3, h4⟩ ?_
      have ha := find_directional_offset_le_length hfd
      have hb := cursor_length_le_stop c
      omega
  | WholeData =>
    rw [front_backward.eq_def]
    dsimp only
    cases hfd : find_directional_offset (all_but_front_rem c) pattern loc .Backward with
    | none => exact ⟨h1, h2, h3, h4⟩
    | some off =>
      show check_invariants (move_front_backward c off .WholeData)
      refine check_invariants_move_front_backward ⟨h1, h2, h3, h4⟩ ?_
      have ha := find_directional_offset_le_length hfd
      have hb := all_but_front_rem_length_le c
      omega

theorem check_invariants_back_forward {c : ParseCursor} (pattern : Str)
    (loc : PatternLoc) (strat : InwardStrategy) (h : check_invariants c) :
    check_invariants (back_forward c pattern loc strat).1 := by
  obtain ⟨h1, h2, h3, h4⟩ := h
  rw [back_forward]
  cases hfd : find_directional_offset (back_forward_view c strat) pattern loc
      .Forward with
  | none => exact ⟨h1, h2, h3, h4⟩
  | some off =>
    refine @check_invariants_move_back_forward c off strat ⟨h1, h2, h3, h4⟩ ?_
    have := find_directional_offset_le_length hfd
    have := back_forward_view_length_le c strat h1 h2
    omega

theorem check_invariants_back_forward_or {c : ParseCursor} (pattern : Str)
    (loc : PatternLoc) (strat : InwardStrategy) (fallback : FallBack)
    (h : check_invariants c) :
    check_invariants (back_forward_or c pattern loc strat fallback) := by
  rw [back_forward_or]
  cases hbf : back_forward c pattern loc strat with
  | mk c1 res =>
    have hc1 : check_invariants c1 := by
      have := check_invariants_back_forward pattern loc strat h
      rw [hbf] at this
      exact this
    cases res with
    | ok => exact hc1
    | failed =>
      cases fallback with
      | ToTheEnd =>
        refine check_invariants_move_back_forward hc1 ?_
        exact back_forward_view_length_le c1 strat hc1.1 hc1.2.1
      | StayAtBeginning => exact hc1

theorem check_invariants_front_forward_by {c : ParseCursor} {off : Nat}
    (h : check_invariants c) (hb : is_char_boundary (front_rem c) off) :
    check_invariants (front_forward_by c off) :=
  check_invariants_move_front_forward h hb

theorem check_invariants_back_forward_by {c : ParseCursor} {off : Nat}
    {strat : InwardStrategy} (h : check_invariants c)
    (hb : is_char_boundary (back_forward_view c strat) off) :
    check_invariants (back_forward_by c off strat) := by
  refine check_invariants_move_back_forward h ?_
  have := back_forward_view_length_le c strat h.1 h.2.1
  exact le_trans hb this

theorem check_invariants_snap {c : ParseCursor} (h : check_invariants c) :
    check_invariants (snap c) :=
  check_invariants_new_full (cursor c)

/-! ### Claim theorems -/

/-- C1: for every cursor state reachable from any of the three constructors
(`new_empty_start`, `new_empty_end`, `new_full`) by any sequence of public
movement, reset, and extraction operations, the span satisfies
`0 ≤ start ≤ end ≤ len(buffer)` and both `start` and `end` lie on valid
text-unit boundaries of the buffer. -/
theorem reachable_boundary_invariant {c : ParseCursor} (h : Reachable c) :
    check_invariants c := by
  induction h with
  | of_new_empty_start s => exact check_invariants_new_empty_start s
  | of_new_empty_end s => exact check_invariants_new_empty_end s
  | of_new_full s => exact check_invariants_new_full s
  | of_front_to_back _ ih => exact check_invariants_front_to_back ih
  | of_back_to_front _ ih => exact check_invariants_back_to_front ih
  | of_front_forward pattern loc _ ih =>
    exact check_invariants_front_forward pattern loc ih
  | of_front_forward_or pattern loc fallback _ ih =>
    exact check_invariants_front_forward_or pattern loc fallback ih
  | of_back_backward pattern loc _ ih =>
    exact check_invariants_back_backward pattern loc ih
  | of_front_backward pattern loc strat _ ih =>
    exact check_invariants_front_backward pattern loc strat ih
  | of_back_forward pattern loc strat _ ih =>
    exact check_invariants_back_forward pattern loc strat ih
  | of_back_forward_or pattern loc strat fallback _ ih =>
    exact check_invariants_back_forward_or pattern loc strat fallback ih
  | of_front_forward_by off _ hb ih =>
    exact check_invariants_front_forward_by ih hb
  | of_back_forward_by off strat _ hb ih =>
    exact check_invariants_back_forward_by ih hb
  | of_snap _ ih => exact check_invariants_snap ih

/-- Witness for C1 at a concrete reachable state. -/
theorem reachable_boundary_invariant_witness :
    check_invariants
      (front_forward (new_full ('a' :: 'b' :: [])) ('a' :: []) .FirstIncluded).1 :=
  reachable_boundary_invariant
    (Reachable.of_front_forward ('a' :: []) .FirstIncluded
      (Reachable.of_new_full ('a' :: 'b' :: [])))

/-- C2: for every cursor and every fallible movement operation
(`front_forward`, `back_backward`, `front_backward`, `back_forward`), a
`failed` outcome leaves the cursor (its span and buffer) identical. -/
theorem failed_move_leaves_cursor_unchanged (c : ParseCursor) (pattern : Str)
    (loc : PatternLoc) (strat : InwardStrategy) :
    ((front_forward c pattern loc).2 = .failed →
      (front_forward c pattern loc).1 = c) ∧
    ((back_backward c pattern loc).2 = .failed →
      (back_backward c pattern loc).1 = c) ∧
    ((front_backward c pattern loc strat).2 = .failed →
      (front_backward c pattern loc strat).1 = c) ∧
    ((back_forward c pattern loc strat).2 = .failed →
      (back_forward c pattern loc strat).1 = c) := by
  refine ⟨?_, ?_, ?_, ?_⟩
  · rw [front_forward]
    cases find_directional_offset (front_rem c) pattern loc .Forward <;> simp
  · rw [back_backward]
    cases find_directional_offset (back_rem c) pattern loc .Backward <;> simp
  · cases strat with
    | CursorOnly =>
      rw [front_backward.eq_def]
      dsimp only
      cases find_directional_offset (cursor c) pattern loc .Backward <;> simp
    | WholeData =>
      rw [front_backward.eq_def]
      dsimp only
      cases find_directional_offset (all_but_front_rem c) pattern loc .Backward <;>
        simp
  · rw [back_forward]
    cases find_directional_offset (back_forward_view c strat) pattern loc
        .Forward <;> simp

/-- Witness for C2 at concrete failing calls. -/
theorem failed_move_leaves_cursor_unchanged_witness :
    (front_forward (new_full []) ('x' :: []) .FirstExcluded).1 = new_full [] ∧
    (back_backward (new_full []) ('x' :: []) .FirstExcluded).1 = new_full [] ∧
    (front_backward (new_full []) ('x' :: []) .FirstExcluded .CursorOnly).1 =
      new_full [] ∧
    (back_forward (new_full []) ('x' :: []) .FirstExcluded .CursorOnly).1 =
      new_full [] := by
  have h := failed_move_leaves_cursor_unchanged (new_full []) ('x' :: [])
    .FirstExcluded .CursorOnly
  exact ⟨h.1 (by decide), h.2.1 (by decide), h.2.2.1 (by decide),
    h.2.2.2 (by decide)⟩

/-- C4 counterexample: on the cursor spanning all of "ab" (`start = 0`,
`end = 2`), `front_to_back` sets `end` to the old `start`, leaving
`start = 0`; the claim predicts `start` becomes the old `end` (2). -/
theorem front_to_back_collapse_counterexample :
    (front_to_back (new_full ('a' :: 'b' :: []))).start ≠ 2 := by decide

/-- C4 amended: `front_to_back` collapses the span to zero width at its START
boundary (`end` becomes the old `start`), and `back_to_front` collapses it to
zero width at its END boundary (`start` becomes the old `end`). -/
theorem front_to_back_back_to_front_collapse (c : ParseCursor) :
    (front_to_back c).stop = c.start ∧ (front_to_back c).start = c.start ∧
    (front_to_back c).data = c.data ∧ (cursor (front_to_back c)).length = 0 ∧
    (back_to_front c).start = c.stop ∧ (back_to_front c).stop = c.stop ∧
    (back_to_front c).data = c.data ∧ (cursor (back_to_front c)).length = 0 := by
  refine ⟨rfl, rfl, rfl, ?_, rfl, rfl, rfl, ?_⟩ <;>
    · simp only [cursor, front_to_back, back_to_front, List.length_drop,
        List.length_take]
      omega

/-- C5: under the `WholeData` inward strategy, when the resolver's offset
exceeds the current span width, the move drags the other boundary along so
that the span collapses to zero width at the crossing point instead of
failing: `front_backward` lands both boundaries on `old_end - off`, and
`back_forward` lands both on `old_start + off`. -/
theorem whole_data_crossing_collapses (c : ParseCursor) (pattern : Str)
    (loc : PatternLoc) (off : Nat) :
    (find_directional_offset (all_but_front_rem c) pattern loc .Backward =
        some off →
      (cursor c).length < off →
      front_backward c pattern loc .WholeData =
        ({ data := c.data, start := c.stop - off, stop := c.stop - off },
          .ok)) ∧
    (find_directional_offset (all_but_back_rem c) pattern loc .Forward =
        some off →
      (cursor c).length < off →
      back_forward c pattern loc .WholeData =
        ({ data := c.data, start := c.start + off, stop := c.start + off },
          .ok)) := by
  constructor
  · intro hfd hcross
    rw [front_backward.eq_def]
    dsimp only
    rw [hfd]
    show (move_front_backward c off .WholeData, MoveResult.ok) = _
    rw [move_front_backward, if_neg (by omega)]
    rfl
  · intro hfd hcross
    rw [back_forward]
    rw [show back_forward_view c .WholeData = all_but_back_rem c from rfl, hfd]
    show (move_back_forward c off .WholeData, MoveResult.ok) = _
    rw [move_back_forward, if_neg (by omega)]
    rfl

/-- Witness for C5 at concrete crossing moves on the buffer "ab". -/
theorem whole_data_crossing_collapses_witness :
    front_backward ⟨('a' :: 'b' :: []), 1, 2⟩ ('a' :: []) .FirstIncluded
        .WholeData =
      ({ data := ('a' :: 'b' :: []), start := 0, stop := 0 }, .ok) ∧
    back_forward ⟨('a' :: 'b' :: []), 0, 1⟩ ('b' :: []) .FirstIncluded
        .WholeData =
      ({ data := ('a' :: 'b' :: []), start := 2, stop := 2 }, .ok) :=
  ⟨(whole_data_crossing_collapses ⟨('a' :: 'b' :: []), 1, 2⟩ ('a' :: [])
      .FirstIncluded 2).1 (by decide) (by decide),
   (whole_data_crossing_collapses ⟨('a' :: 'b' :: []), 0, 1⟩ ('b' :: [])
      .FirstIncluded 2).2 (by decide) (by decide)⟩

/-- C6: for every valid cursor state, the three views returned by `split`
(before, span, after) concatenate byte-for-byte to the original buffer. -/
theorem split_completeness (c : ParseCursor) (h : check_invariants c) :
    (split c).1 ++ (split c).2.1 ++ (split c).2.2 = c.data := by
  obtain ⟨h1, h2, -, -⟩ := h
  simp only [split, back_rem, cursor, front_rem]
  have h3 : c.data.take c.start = (c.data.take c.stop).take c.start := by
    rw [List.take_take, Nat.min_eq_left h1]
  rw [h3, List.take_append_drop, List.take_append_drop]

/-- Witness for C6 on the buffer "abc" with span `[1, 2)`. -/
theorem split_completeness_witness :
    (split ⟨('a' :: 'b' :: 'c' :: []), 1, 2⟩).1 ++
      (split ⟨('a' :: 'b' :: 'c' :: []), 1, 2⟩).2.1 ++
      (split ⟨('a' :: 'b' :: 'c' :: []), 1, 2⟩).2.2 =
      ('a' :: 'b' :: 'c' :: []) :=
  split_completeness ⟨('a' :: 'b' :: 'c' :: []), 1, 2⟩ (by decide)

/-- C10: with the `CursorOnly` strategy the resolver searches the span view
itself, so any offset it returns is at most the span width: the
boundary-crossing branch (the debug-mode panic, release-mode collapse) of
`move_front_backward` / `move_back_forward` is unreachable through
`front_backward` / `back_forward`, which instead take the in-span branch. -/
theorem cursor_only_never_crosses (c : ParseCursor) (pattern : Str)
    (loc : PatternLoc) (off : Nat) :
    (find_directional_offset (cursor c) pattern loc .Backward = some off →
      ¬ crosses_opposite_boundary c off ∧
        front_backward c pattern loc .CursorOnly =
          ({ c with stop := c.stop - off }, .ok)) ∧
    (find_directional_offset (cursor c) pattern loc .Forward = some off →
      ¬ crosses_opposite_boundary c off ∧
        back_forward c pattern loc .CursorOnly =
          ({ c with start := c.start + off }, .ok)) := by
  constructor
  · intro hfd
    have hle := find_directional_offset_le_length hfd
    refine ⟨by rw [crosses_opposite_boundary]; omega, ?_⟩
    rw [front_backward.eq_def]
    dsimp only
    rw [hfd]
    show (move_front_backward c off .CursorOnly, MoveResult.ok) = _
    rw [move_front_backward, if_pos (by omega)]
  · intro hfd
    have hle := find_directional_offset_le_length hfd
    refine ⟨by rw [crosses_opposite_boundary]; omega, ?_⟩
    rw [back_forward]
    rw [show back_forward_view c .CursorOnly = cursor c from rfl, hfd]
    show (move_back_forward c off .CursorOnly, MoveResult.ok) = _
    rw [move_back_forward, if_pos (by omega)]

/-- Witness for C10 at concrete in-span resolutions on the buffer "ab". -/
theorem cursor_only_never_crosses_witness :
    (¬ crosses_opposite_boundary (new_full ('a' :: 'b' :: [])) 1 ∧
      front_backward (new_full ('a' :: 'b' :: [])) ('a' :: []) .FirstExcluded
          .CursorOnly =
        ({ data := ('a' :: 'b' :: []), start := 0, stop := 1 }, .ok)) ∧
    (¬ crosses_opposite_boundary (new_full ('a' :: 'b' :: [])) 0 ∧
      back_forward (new_full ('a' :: 'b' :: [])) ('a' :: []) .FirstExcluded
          .CursorOnly =
        ({ data := ('a' :: 'b' :: []), start := 0, stop := 2 }, .ok)) :=
  ⟨(cursor_only_never_crosses (new_full ('a' :: 'b' :: [])) ('a' :: [])
      .FirstExcluded 1).1 (by decide),
   (cursor_only_never_crosses (new_full ('a' :: 'b' :: [])) ('a' :: [])
      .FirstExcluded 0).2 (by decide)⟩

/-- C9: `front_forward` with the `BeginningMany` anchor kind always succeeds,
and an immediately repeated call with the same pattern succeeds and advances
the boundary by zero (the repeated call returns the cursor unchanged): trim
is idempotent. -/
theorem front_forward_beginning_many_idem (c : ParseCursor) (pattern : Str) :
    (front_forward c pattern .BeginningMany).2 = .ok ∧
    front_forward (front_forward c pattern .BeginningMany).1 pattern
        .BeginningMany =
      ((front_forward c pattern .BeginningMany).1, .ok) := by
  have hfd1 : find_directional_offset (front_rem c) pattern .BeginningMany
      .Forward =
      some ((front_rem c).length -
        (trim_start_matches_ (front_rem c) pattern).length) := rfl
  have hff1 : front_forward c pattern .BeginningMany =
      (move_front_forward c ((front_rem c).length -
        (trim_start_matches_ (front_rem c) pattern).length), .ok) := by
    rw [front_forward, hfd1]
  refine ⟨by rw [hff1], ?_⟩
  have hfr1 : front_rem (front_forward c pattern .BeginningMany).1 =
      trim_start_matches_ (front_rem c) pattern := by
    rw [hff1]
    show c.data.drop (c.stop + ((front_rem c).length -
      (trim_start_matches_ (front_rem c) pattern).length)) = _
    rw [← List.drop_drop]
    show (front_rem c).drop ((front_rem c).length -
      (trim_start_matches_ (front_rem c) pattern).length) = _
    exact suffix_drop_of_suffix (trim_start_matches_suffix_of _ _)
  have hidem : trim_start_matches_ (trim_start_matches_ (front_rem c) pattern)
      pattern = trim_start_matches_ (front_rem c) pattern :=
    trim_start_matches_idem _ _
  have hfd2 : find_directional_offset
      (front_rem (front_forward c pattern .BeginningMany).1) pattern
      .BeginningMany .Forward = some 0 := by
    rw [hfr1]
    show some ((trim_start_matches_ (front_rem c) pattern).length -
      (trim_start_matches_ (trim_start_matches_ (front_rem c) pattern)
        pattern).length) = some 0
    rw [hidem, Nat.sub_self]
  rw [front_forward, hfd2]
  show (move_front_forward (front_forward c pattern .BeginningMany).1 0,
    MoveResult.ok) = _
  rw [move_front_forward]
  simp

theorem strip_prefix__eq_none_iff {s p : Str} :
    strip_prefix_ s p = none ↔ ¬ p <+: s := by
  rw [strip_prefix_]
  by_cases h : p.isPrefixOf s
  · rw [if_pos h]
    have hp : p <+: s := by simpa using h
    simp [hp]
  · rw [if_neg h]
    have hp : ¬ p <+: s := by simpa using h
    simp [hp]

theorem strip_suffix__eq_none_iff {s p : Str} :
    strip_suffix_ s p = none ↔ ¬ p <:+ s := by
  rw [strip_suffix_]
  by_cases h : p.isSuffixOf s
  · rw [if_pos h]
    have hp : p <:+ s := by simpa using h
    simp [hp]
  · rw [if_neg h]
    have hp : ¬ p <:+ s := by simpa using h
    simp [hp]

/-- C3 counterexample: with haystack "hello" and the absent pattern "x", the
`BeginningMany`-Forward resolver returns `some 0` (trimming zero repeats)
instead of the "not found" result the claim requires for an absent
pattern. -/
theorem resolver_not_found_counterexample :
    find_directional_offset ('h' :: 'e' :: 'l' :: 'l' :: 'o' :: [])
        ('x' :: []) .BeginningMany .Forward = some 0 ∧
      ¬ ('x' :: []) <:+: ('h' :: 'e' :: 'l' :: 'l' :: 'o' :: []) := by
  constructor
  · decide
  · decide

/-- C3 amended: the resolver yields the "not found" result exactly when the
pattern is absent from the haystack for the four find-based anchor kinds
(`FirstExcluded`, `FirstIncluded`, `LastExcluded`, `EndOfLast`), and, for
`BeginningOnce`, exactly when the pattern is not anchored at the boundary
(not a leading slice for Forward scans, not a trailing slice for Backward
scans); the trimming kinds `BeginningMany` and `StartOfSuffixMany` never
fail — they return an offset (trimming zero occurrences) even when the
pattern is absent.  In every other case the resolver returns an offset. -/
theorem resolver_not_found_characterization (haystack pattern : Str)
    (loc : PatternLoc) (direction : Direction) :
    find_directional_offset haystack pattern loc direction = none ↔
      resolver_failure_condition haystack pattern loc direction := by
  cases loc <;> cases direction
  case FirstExcluded.Forward =>
    show find_ haystack pattern = none ↔ ¬ pattern <:+: haystack
    exact find__eq_none_iff_not_infix
  case FirstExcluded.Backward =>
    show ((rfind_ haystack pattern).map _).map _ = none ↔
      ¬ pattern <:+: haystack
    rw [Option.map_eq_none', Option.map_eq_none']
    exact rfind__eq_none_iff_not_infix
  case FirstIncluded.Forward =>
    show (find_ haystack pattern).map _ = none ↔ ¬ pattern <:+: haystack
    rw [Option.map_eq_none']
    exact find__eq_none_iff_not_infix
  case FirstIncluded.Backward =>
    show (rfind_ haystack pattern).map _ = none ↔ ¬ pattern <:+: haystack
    rw [Option.map_eq_none']
    exact rfind__eq_none_iff_not_infix
  case BeginningMany.Forward =>
    show some _ = none ↔ False
    simp
  case BeginningMany.Backward =>
    show some _ = none ↔ False
    simp
  case BeginningOnce.Forward =>
    show (strip_prefix_ haystack pattern).map _ = none ↔
      ¬ pattern <+: haystack
    rw [Option.map_eq_none']
    exact strip_prefix__eq_none_iff
  case BeginningOnce.Backward =>
    show (strip_suffix_ haystack pattern).map _ = none ↔
      ¬ pattern <:+ haystack
    rw [Option.map_eq_none']
    exact strip_suffix__eq_none_iff
  case LastExcluded.Forward =>
    show rfind_ haystack pattern = none ↔ ¬ pattern <:+: haystack
    exact rfind__eq_none_iff_not_infix
  case LastExcluded.Backward =>
    show ((rfind_ haystack pattern).map _).map _ = none ↔
      ¬ pattern <:+: haystack
    rw [Option.map_eq_none', Option.map_eq_none']
    exact rfind__eq_none_iff_not_infix
  case EndOfLast.Forward =>
    show (rfind_ haystack pattern).map _ = none ↔ ¬ pattern <:+: haystack
    rw [Option.map_eq_none']
    exact rfind__eq_none_iff_not_infix
  case EndOfLast.Backward =>
    show (find_ haystack pattern).map _ = none ↔ ¬ pattern <:+: haystack
    rw [Option.map_eq_none']
    exact find__eq_none_iff_not_infix
  case StartOfSuffixMany.Forward =>
    show some _ = none ↔ False
    simp
  case StartOfSuffixMany.Backward =>
    show some _ = none ↔ False
    simp

/-- C7 counterexample: on the buffer "baa", starting from `new_empty_start`,
the recipe "front_forward to just past an 'a', then back_backward to just
after a 'b'" fails on the first pull (no 'b' lies before the span) but has
already advanced the span past the first 'a'; the second pull then succeeds
and yields "aa".  So a pull after a failed pull can yield an item: the
iterator produced by `step` does not stop permanently after the first
failure. -/
theorem step_stops_permanently_counterexample :
    (step_pull (fun c =>
        match front_forward c ('a' :: []) .FirstIncluded with
        | (c1, .ok) => back_backward c1 ('b' :: []) .FirstExcluded
        | (c1, .failed) => (c1, .failed))
      (new_empty_start ('b' :: 'a' :: 'a' :: []))).1 = none ∧
    (step_pull (fun c =>
        match front_forward c ('a' :: []) .FirstIncluded with
        | (c1, .ok) => back_backward c1 ('b' :: []) .FirstExcluded
        | (c1, .failed) => (c1, .failed))
      (step_pull (fun c =>
          match front_forward c ('a' :: []) .FirstIncluded with
          | (c1, .ok) => back_backward c1 ('b' :: []) .FirstExcluded
          | (c1, .failed) => (c1, .failed))
        (new_empty_start ('b' :: 'a' :: 'a' :: []))).2).1 =
      some ('a' :: 'a' :: []) := by
  constructor
  · decide
  · decide

/-- C7 amended: each pull of the `step` iterator collapses the span forward
(`back_to_front`) and runs the recipe once: a pull yields no item exactly
when the recipe fails on that pull, and yields the recipe's new span on
success.  The iterator is not fused: a failed pull keeps the recipe's
partial mutations of the cursor, and a later pull yields an item again
whenever the recipe succeeds from that state. -/
theorem step_pull_characterization
    (f : ParseCursor → ParseCursor × MoveResult) (c c2 : ParseCursor) :
    (f (back_to_front c) = (c2, .ok) →
      step_pull f c = (some (cursor c2), c2)) ∧
    (f (back_to_front c) = (c2, .failed) → step_pull f c = (none, c2)) := by
  refine ⟨fun h => ?_, fun h => ?_⟩ <;>
  · rw [step_pull.eq_def]
    dsimp only
    rw [h]

/-- Witness for C7 (amended) with the always-succeeding identity recipe. -/
theorem step_pull_characterization_witness :
    step_pull (fun c => (c, .ok)) (new_full ('a' :: [])) =
      (some (cursor (back_to_front (new_full ('a' :: [])))),
        back_to_front (new_full ('a' :: []))) :=
  (step_pull_characterization (fun c => (c, .ok)) (new_full ('a' :: []))
    (back_to_front (new_full ('a' :: [])))).1 rfl

/-! ### Directional symmetry (C8) -/

theorem exists_unique_of_count_one {S p : Str}
    (h : count_occurrences S p = 1) :
    ∃ i₀, i₀ ≤ S.length ∧ p <+: S.drop i₀ ∧
      ∀ j, j ≤ S.length → p <+: S.drop j → j = i₀ := by
  rw [count_occurrences] at h
  obtain ⟨a, ha⟩ := List.length_eq_one.mp h
  have hmem : a ∈ (List.range (S.length + 1)).filter
      (fun i => p.isPrefixOf (S.drop i)) := by
    rw [ha]
    exact List.mem_singleton.mpr rfl
  obtain ⟨har, haq⟩ := List.mem_filter.mp hmem
  refine ⟨a, by simpa [Nat.lt_succ_iff] using List.mem_range.mp har,
    by simpa using haq, ?_⟩
  intro j hj hocc
  have hjmem : j ∈ (List.range (S.length + 1)).filter
      (fun i => p.isPrefixOf (S.drop i)) :=
    List.mem_filter.mpr ⟨List.mem_range.mpr (by omega), by simpa using hocc⟩
  rw [ha] at hjmem
  simpa using hjmem

theorem suffix_take_imp {S p : Str} {m : Nat} (hm : m ≤ S.length)
    (h : p <:+ S.take m) :
    p.length ≤ m ∧ p <+: S.drop (m - p.length) := by
  obtain ⟨u, hu⟩ := h
  have hlen : u.length + p.length = m := by
    have := congrArg List.length hu
    simp only [List.length_append, List.length_take] at this
    omega
  have hS : S = u ++ (p ++ S.drop m) := by
    conv_lhs => rw [← List.take_append_drop m S]
    rw [← hu, List.append_assoc]
  constructor
  · omega
  · have hidx : m - p.length = u.length := by omega
    rw [hidx]
    refine ⟨S.drop m, ?_⟩
    conv_rhs => rw [hS]
    rw [hS, List.drop_left]

theorem prefix_drop_imp_suffix_take {S p : Str} {i : Nat}
    (h : p <+: S.drop i) : p <:+ S.take (i + p.length) := by
  obtain ⟨r, hr⟩ := h
  have htake : (S.drop i).take p.length = p := by
    rw [← hr]
    exact List.take_left' rfl
  rw [List.take_drop] at htake
  refine ⟨(S.take (i + p.length)).take i, ?_⟩
  conv_rhs => rw [← List.take_append_drop i (S.take (i + p.length))]
  rw [htake]

/-- C8: directional symmetry: for a pattern with a single occurrence in `S`,
`FirstExcluded`-Forward on `S` and `FirstExcluded`-Backward on `reverse S`
with the reversed pattern yield the same (mirrored) offset. -/
theorem first_excluded_directional_symmetry (S p : Str)
    (h : count_occurrences S p = 1) :
    find_directional_offset S.reverse p.reverse .FirstExcluded .Backward =
      find_directional_offset S p .FirstExcluded .Forward := by
  obtain ⟨i₀, hi₀le, hi₀occ, huniq⟩ := exists_unique_of_count_one h
  have hplen : i₀ + p.length ≤ S.length := by
    have := hi₀occ.length_le
    simp only [List.length_drop] at this
    omega
  have hfind : find_ S p = some i₀ := by
    rw [find__eq_some_iff]
    refine ⟨hi₀le, hi₀occ, fun j hj hocc => ?_⟩
    have := huniq j (by omega) hocc
    omega
  have hrfind : rfind_ S.reverse p.reverse =
      some (S.length - p.length - i₀) := by
    rw [rfind__eq_some_iff]
    refine ⟨?_, ?_, ?_⟩
    · rw [List.length_reverse]
      omega
    · rw [List.drop_reverse]
      rw [show S.length - (S.length - p.length - i₀) = i₀ + p.length from
        by omega]
      rw [ List.reverse_prefix]
      exact prefix_drop_imp_suffix_take hi₀occ
    · intro j hgt hle hocc
      rw [List.length_reverse] at hle
      rw [List.drop_reverse, List.reverse_prefix] at hocc
      obtain ⟨hlp, hocc2⟩ := suffix_take_imp (by omega) hocc
      have := huniq (S.length - j - p.length) (by omega) hocc2
      omega
  show ((rfind_ S.reverse p.reverse).map _).map _ = find_ S p
  rw [hrfind, hfind, Option.map_some', Option.map_some']
  show some (S.reverse.length -
    (S.length - p.length - i₀ + p.reverse.length)) = some i₀
  rw [List.length_reverse, List.length_reverse]
  congr 1
  omega

/-- Witness for C8: the pattern "a" occurs exactly once in "ab". -/
theorem first_excluded_directional_symmetry_witness :
    count_occurrences ('a' :: 'b' :: []) ('a' :: []) = 1 ∧
    find_directional_offset ('a' :: 'b' :: []).reverse ('a' :: []).reverse
        .FirstExcluded .Backward =
      find_directional_offset ('a' :: 'b' :: []) ('a' :: [])
        .FirstExcluded .Forward :=
  ⟨by decide,
    first_excluded_directional_symmetry ('a' :: 'b' :: []) ('a' :: [])
      (by decide)⟩

end Parsebuf
